import Mathlib

/-!
Verification of the symbolic expression core of ARIS
(`libaris/src/main/rust/src/expression.rs`): the `Expr` data model,
free-variable analysis, `gensym`, capture-avoiding substitution `subst`,
the unifier `unify`, the generic fixed-point tree transformer
`transform_expr`, and the normalization passes built on it.

Modelling conventions:
* Rust `HashSet<String>` values are modelled as `List String`; the source
  only ever queries membership (`contains`), inserts, unions and removes,
  so a list with possible duplicates is membership-equivalent.
* The unifier's `HashSet` of constraints is drained in an arbitrary order
  in Rust; here the constraint collection is a list and the head is drained
  first (the spec allows any deterministic order).
* Functions whose Rust originals are not structurally recursive
  (`subst`, `unify`, `transform_expr`) are defined with an explicit fuel
  parameter; `subst` is then recovered as a total function by proving that
  fuel `size e` always suffices.
-/

inductive USymbol where
  | Not
deriving DecidableEq

inductive BSymbol where
  | Implies
  | Plus
  | Mult
deriving DecidableEq

inductive ASymbol where
  | And
  | Or
  | Bicon
  | Equiv
deriving DecidableEq

inductive QSymbol where
  | Forall
  | Exists
deriving DecidableEq

/-- The `Expr` enum of the source: a finite tree of logical formulas. -/
inductive Expr where
  | Contradiction : Expr
  | Tautology : Expr
  | Var (name : String) : Expr
  | Apply (func : Expr) (args : List Expr) : Expr
  | Unop (symbol : USymbol) (operand : Expr) : Expr
  | Binop (symbol : BSymbol) (left : Expr) (right : Expr) : Expr
  | AssocBinop (symbol : ASymbol) (exprs : List Expr) : Expr
  | Quantifier (symbol : QSymbol) (name : String) (body : Expr) : Expr

namespace Expr

/- Structural (derived) equality of the source, as a boolean function
(the automatic `DecidableEq` derivation does not handle the nested
`List Expr` fields, so it is spelled out). -/
mutual
def beq : Expr → Expr → Bool
  | .Contradiction, .Contradiction => true
  | .Tautology, .Tautology => true
  | .Var n, .Var m => decide (n = m)
  | .Apply f a, .Apply g b => beq f g && beqList a b
  | .Unop s o, .Unop t p => decide (s = t) && beq o p
  | .Binop s l r, .Binop t l' r' => decide (s = t) && beq l l' && beq r r'
  | .AssocBinop s es, .AssocBinop t es' => decide (s = t) && beqList es es'
  | .Quantifier s n b, .Quantifier t m b' =>
      decide (s = t) && decide (n = m) && beq b b'
  | _, _ => false
def beqList : List Expr → List Expr → Bool
  | [], [] => true
  | x :: xs, y :: ys => beq x y && beqList xs ys
  | _, _ => false
end

mutual
theorem beq_iff : ∀ a b : Expr, beq a b = true ↔ a = b
  | .Contradiction, b => by cases b <;> simp [beq]
  | .Tautology, b => by cases b <;> simp [beq]
  | .Var n, b => by cases b <;> simp [beq]
  | .Apply f a, b => by
      cases b <;> simp [beq, beq_iff f, beqList_iff a]
  | .Unop s o, b => by cases b <;> simp [beq, beq_iff o]
  | .Binop s l r, b => by
      cases b <;> simp [beq, beq_iff l, beq_iff r] <;> tauto
  | .AssocBinop s es, b => by cases b <;> simp [beq, beqList_iff es]
  | .Quantifier s n bd, b => by
      cases b <;> simp [beq, beq_iff bd] <;> tauto
theorem beqList_iff : ∀ a b : List Expr, beqList a b = true ↔ a = b
  | [], b => by cases b <;> simp [beqList]
  | x :: xs, b => by
      cases b <;> simp [beqList, beq_iff x, beqList_iff xs]
end

instance : DecidableEq Expr := fun a b => decidable_of_iff _ (beq_iff a b)

/- Node count of an expression; used as the fuel/termination measure. -/
mutual
def size : Expr → Nat
  | .Contradiction => 1
  | .Tautology => 1
  | .Var _ => 1
  | .Apply f args => size f + sizeList args + 1
  | .Unop _ o => size o + 1
  | .Binop _ l r => size l + size r + 1
  | .AssocBinop _ es => sizeList es + 1
  | .Quantifier _ _ b => size b + 1
def sizeList : List Expr → Nat
  | [] => 0
  | x :: xs => size x + sizeList xs
end

theorem size_pos : ∀ e : Expr, 0 < size e := by
  intro e; cases e <;> simp [size]

theorem sizeList_cons (x : Expr) (xs : List Expr) :
    sizeList (x :: xs) = size x + sizeList xs := rfl

theorem size_le_sizeList_of_mem : ∀ {a : Expr} {l : List Expr}, a ∈ l → size a ≤ sizeList l := by
  intro a l h
  induction l with
  | nil => cases h
  | cons x xs ih =>
      rcases List.mem_cons.mp h with h | h
      · subst h; simp [sizeList]
      · have := ih h; simp [sizeList]; omega

end Expr

/- Free-variable analysis (`freevars` in the source).  The Rust function
returns a `HashSet<String>`; here the set is represented as a list and all
properties are stated through membership. -/
mutual
def freevars : Expr → List String
  | .Contradiction => []
  | .Tautology => []
  | .Var name => [name]
  | .Apply func args => freevars func ++ freevarsList args
  | .Unop _ operand => freevars operand
  | .Binop _ left right => freevars left ++ freevars right
  | .AssocBinop _ exprs => freevarsList exprs
  | .Quantifier _ name body => (freevars body).filter (fun s => s ≠ name)
def freevarsList : List Expr → List String
  | [] => []
  | x :: xs => freevars x ++ freevarsList xs
end

theorem mem_freevarsList {n : String} {l : List Expr} :
    n ∈ freevarsList l ↔ ∃ x ∈ l, n ∈ freevars x := by
  induction l with
  | nil => simp [freevarsList]
  | cons x xs ih => simp [freevarsList, ih]

/- Every identifier (free variable, bound occurrence or binder name)
occurring anywhere in an expression; auxiliary, used to state freshness
side conditions. -/
mutual
def allIdents : Expr → List String
  | .Contradiction => []
  | .Tautology => []
  | .Var name => [name]
  | .Apply func args => allIdents func ++ allIdentsList args
  | .Unop _ operand => allIdents operand
  | .Binop _ left right => allIdents left ++ allIdents right
  | .AssocBinop _ exprs => allIdentsList exprs
  | .Quantifier _ name body => name :: allIdents body
def allIdentsList : List Expr → List String
  | [] => []
  | x :: xs => allIdents x ++ allIdentsList xs
end

theorem mem_allIdentsList {n : String} {l : List Expr} :
    n ∈ allIdentsList l ↔ ∃ x ∈ l, n ∈ allIdents x := by
  induction l with
  | nil => simp [allIdentsList]
  | cons x xs ih => simp [allIdentsList, ih]

theorem freevars_subset_allIdents : ∀ e : Expr, ∀ n ∈ freevars e, n ∈ allIdents e := by
  have key : ∀ N, ∀ e : Expr, Expr.size e ≤ N → ∀ n ∈ freevars e, n ∈ allIdents e := by
    intro N
    induction N with
    | zero => intro e he; have := Expr.size_pos e; omega
    | succ N ih =>
        intro e he n hn
        cases e with
        | Contradiction => simp [freevars] at hn
        | Tautology => simp [freevars] at hn
        | Var m => simpa [freevars, allIdents] using hn
        | Apply f args =>
            simp [freevars, mem_freevarsList] at hn
            simp [allIdents, mem_allIdentsList]
            simp [Expr.size] at he
            rcases hn with hn | ⟨x, hx, hn⟩
            · exact Or.inl (ih f (by omega) n hn)
            · exact Or.inr ⟨x, hx, ih x (by have := Expr.size_le_sizeList_of_mem hx; omega) n hn⟩
        | Unop s o =>
            simp [Expr.size] at he
            exact ih o (by omega) n (by simpa [freevars] using hn)
        | Binop s l r =>
            simp [freevars] at hn
            simp [allIdents]
            simp [Expr.size] at he
            rcases hn with hn | hn
            · exact Or.inl (ih l (by omega) n hn)
            · exact Or.inr (ih r (by omega) n hn)
        | AssocBinop s es =>
            simp [freevars, mem_freevarsList] at hn
            simp [allIdents, mem_allIdentsList]
            simp [Expr.size] at he
            rcases hn with ⟨x, hx, hn⟩
            exact ⟨x, hx, ih x (by have := Expr.size_le_sizeList_of_mem hx; omega) n hn⟩
        | Quantifier q m b =>
            simp [freevars, List.mem_filter] at hn
            simp [allIdents]
            simp [Expr.size] at he
            exact Or.inr (ih b (by omega) n hn.1)
  intro e
  exact key (Expr.size e) e le_rfl

/- `gensym` of the source: the first name of the form `orig ++ i`
(decimal `i = 0, 1, 2, ...`) that is not in `avoid`.  The Rust original
searches the unbounded range `0u64..`; a search bounded by
`avoid.length + 1` finds the same (least) index, because `avoid` has at
most `avoid.length` distinct members while the candidates are pairwise
distinct, so some index in `0..avoid.length` is always free.  The
fallback arm is therefore unreachable. -/
def gensym (orig : String) (avoid : List String) : String :=
  match (List.range (avoid.length + 1)).find? (fun i => !avoid.contains (orig ++ toString i)) with
  | some i => orig ++ toString i
  | none => orig ++ toString (avoid.length + 1)

/- The commutativity table (`PossiblyCommutative` in the source). -/
def BSymbol.is_commutative : BSymbol → Bool
  | .Implies => false
  | .Plus => true
  | .Mult => true

def ASymbol.is_commutative : ASymbol → Bool
  | .And => true
  | .Or => true
  | .Bicon => true
  | .Equiv => true

/- The derived total order of the source (`#[derive(Ord)]` on the symbol
enums and on `Expr`): variants compare by declaration order, fields
lexicographically, `Vec`s lexicographically with shorter-prefix-first,
strings byte-lexicographically. -/
def USymbol.tag : USymbol → Nat
  | .Not => 0

def BSymbol.tag : BSymbol → Nat
  | .Implies => 0
  | .Plus => 1
  | .Mult => 2

def ASymbol.tag : ASymbol → Nat
  | .And => 0
  | .Or => 1
  | .Bicon => 2
  | .Equiv => 3

def QSymbol.tag : QSymbol → Nat
  | .Forall => 0
  | .Exists => 1

def Expr.tag : Expr → Nat
  | .Contradiction => 0
  | .Tautology => 1
  | .Var _ => 2
  | .Apply _ _ => 3
  | .Unop _ _ => 4
  | .Binop _ _ _ => 5
  | .AssocBinop _ _ => 6
  | .Quantifier _ _ _ => 7

mutual
def Expr.cmp : Expr → Expr → Ordering
  | .Var n, .Var m => compare n m
  | .Apply f a, .Apply g b => (Expr.cmp f g).then (Expr.cmpList a b)
  | .Unop s o, .Unop t p => (compare s.tag t.tag).then (Expr.cmp o p)
  | .Binop s l r, .Binop t l' r' =>
      ((compare s.tag t.tag).then (Expr.cmp l l')).then (Expr.cmp r r')
  | .AssocBinop s es, .AssocBinop t es' =>
      (compare s.tag t.tag).then (Expr.cmpList es es')
  | .Quantifier s n b, .Quantifier t m b' =>
      ((compare s.tag t.tag).then (compare n m)).then (Expr.cmp b b')
  | a, b => compare a.tag b.tag
def Expr.cmpList : List Expr → List Expr → Ordering
  | [], [] => .eq
  | [], _ :: _ => .lt
  | _ :: _, [] => .gt
  | x :: xs, y :: ys => (Expr.cmp x y).then (Expr.cmpList xs ys)
end

/- Rust `left <= right` under the derived `Ord`. -/
def Expr.ble (a b : Expr) : Bool := Expr.cmp a b ≠ .gt

/- Capture-avoiding substitution (`subst` in the source).  The Rust
function is not structurally recursive: in the alpha-renaming quantifier
case it recurses on the output of another `subst` call.  `substF` is the
same recursion with an explicit fuel parameter (returning the input
unchanged on fuel exhaustion); `subst` below instantiates the fuel with
`size e`, which is proved sufficient, and clean unconditional unfolding
equations are derived. -/
def substF : Nat → Expr → String → Expr → Expr
  | 0, e, _, _ => e
  | f + 1, e, x, v =>
    match e with
    | .Contradiction => .Contradiction
    | .Tautology => .Tautology
    | .Var name => if name = x then v else .Var name
    | .Apply func args =>
        .Apply (substF f func x v) (args.map (fun a => substF f a x v))
    | .Unop s o => .Unop s (substF f o x v)
    | .Binop s l r => .Binop s (substF f l x v) (substF f r x v)
    | .AssocBinop s es => .AssocBinop s (es.map (fun a => substF f a x v))
    | .Quantifier q name body =>
        if name = x then .Quantifier q name body
        else if name ∈ freevars v then
          .Quantifier q (gensym name (freevars v))
            (substF f (substF f body name (.Var (gensym name (freevars v)))) x v)
        else .Quantifier q name (substF f body x v)

theorem sizeList_map_congr {l : List Expr} {g : Expr → Expr}
    (h : ∀ a ∈ l, Expr.size (g a) = Expr.size a) :
    Expr.sizeList (l.map g) = Expr.sizeList l := by
  induction l with
  | nil => rfl
  | cons a as ih =>
      simp only [List.map_cons, Expr.sizeList]
      rw [h a (by simp), ih (fun b hb => h b (by simp [hb]))]

/- Substituting a variable for a variable preserves the node count;
this is what makes `size e` a sufficient fuel for `substF`. -/
theorem substF_size_var : ∀ f : Nat, ∀ (e : Expr) (x y : String),
    Expr.size e ≤ f → Expr.size (substF f e x (.Var y)) = Expr.size e := by
  intro f
  induction f with
  | zero => intro e x y he; have := Expr.size_pos e; omega
  | succ f ih =>
      intro e x y he
      cases e with
      | Contradiction => rfl
      | Tautology => rfl
      | Var n =>
          by_cases h : n = x <;> simp [substF, h, Expr.size]
      | Apply fn args =>
          simp only [Expr.size] at he
          have h1 : Expr.size fn ≤ f := by omega
          have h2 : ∀ a ∈ args, Expr.size (substF f a x (.Var y)) = Expr.size a := by
            intro a ha
            exact ih a x y (by have := Expr.size_le_sizeList_of_mem ha; omega)
          simp only [substF, Expr.size, ih fn x y h1, sizeList_map_congr h2]
      | Unop s o =>
          simp only [Expr.size] at he
          simp only [substF, Expr.size, ih o x y (by omega)]
      | Binop s l r =>
          simp only [Expr.size] at he
          simp only [substF, Expr.size, ih l x y (by omega), ih r x y (by omega)]
      | AssocBinop s es =>
          simp only [Expr.size] at he
          have h2 : ∀ a ∈ es, Expr.size (substF f a x (.Var y)) = Expr.size a := by
            intro a ha
            exact ih a x y (by have := Expr.size_le_sizeList_of_mem ha; omega)
          simp only [substF, Expr.size, sizeList_map_congr h2]
      | Quantifier q n b =>
          simp only [Expr.size] at he
          have hb : Expr.size b ≤ f := by omega
          by_cases h : n = x
          · simp [substF, h, Expr.size]
          · by_cases h2 : n ∈ freevars (Expr.Var y)
            · have e1 : Expr.size (substF f b n (.Var (gensym n (freevars (Expr.Var y))))) = Expr.size b :=
                ih b n _ hb
              simp only [substF, h, if_false, h2, if_true, Expr.size, if_neg h, if_pos h2]
              rw [ih _ x y (by rw [e1]; exact hb), e1]
            · simp only [substF, if_neg h, if_neg h2, Expr.size, ih b x y hb]

/- Any two sufficient fuels give the same result. -/
theorem substF_fuel_congr : ∀ f : Nat, ∀ (g : Nat) (e : Expr) (x : String) (v : Expr),
    Expr.size e ≤ f → Expr.size e ≤ g → substF f e x v = substF g e x v := by
  intro f
  induction f with
  | zero => intro g e x v he; have := Expr.size_pos e; omega
  | succ f ih =>
      intro g e x v he hg
      cases g with
      | zero => have := Expr.size_pos e; omega
      | succ g =>
          cases e with
          | Contradiction => rfl
          | Tautology => rfl
          | Var n => rfl
          | Apply fn args =>
              simp only [Expr.size] at he hg
              have hmap : ∀ a ∈ args, substF f a x v = substF g a x v := by
                intro a ha
                have := Expr.size_le_sizeList_of_mem ha
                exact ih g a x v (by omega) (by omega)
              simp only [substF, ih g fn x v (by omega) (by omega), List.map_congr_left hmap]
          | Unop s o =>
              simp only [Expr.size] at he hg
              simp only [substF, ih g o x v (by omega) (by omega)]
          | Binop s l r =>
              simp only [Expr.size] at he hg
              simp only [substF, ih g l x v (by omega) (by omega), ih g r x v (by omega) (by omega)]
          | AssocBinop s es =>
              simp only [Expr.size] at he hg
              have hmap : ∀ a ∈ es, substF f a x v = substF g a x v := by
                intro a ha
                have := Expr.size_le_sizeList_of_mem ha
                exact ih g a x v (by omega) (by omega)
              simp only [substF, List.map_congr_left hmap]
          | Quantifier q n b =>
              simp only [Expr.size] at he hg
              have hbf : Expr.size b ≤ f := by omega
              have hbg : Expr.size b ≤ g := by omega
              by_cases h : n = x
              · simp [substF, h]
              · by_cases h2 : n ∈ freevars v
                · have einner : substF f b n (.Var (gensym n (freevars v)))
                      = substF g b n (.Var (gensym n (freevars v))) := ih g b n _ hbf hbg
                  have esz : Expr.size (substF f b n (.Var (gensym n (freevars v)))) = Expr.size b :=
                    substF_size_var f b n _ hbf
                  simp only [substF, if_neg h, if_pos h2]
                  rw [← einner, ih g _ x v (by rw [esz]; exact hbf) (by rw [esz]; exact hbg)]
                · simp only [substF, if_neg h, if_neg h2, ih g b x v hbf hbg]

/- `subst e x v` of the source: replace every free occurrence of `x` in
`e` by `v`, alpha-renaming binders that are free in `v`. -/
def subst (e : Expr) (x : String) (v : Expr) : Expr := substF (Expr.size e) e x v

theorem subst_Contradiction (x : String) (v : Expr) :
    subst .Contradiction x v = .Contradiction := rfl

theorem subst_Tautology (x : String) (v : Expr) :
    subst .Tautology x v = .Tautology := rfl

theorem subst_Var (n x : String) (v : Expr) :
    subst (.Var n) x v = if n = x then v else .Var n := rfl

theorem subst_Unop (s : USymbol) (o : Expr) (x : String) (v : Expr) :
    subst (.Unop s o) x v = .Unop s (subst o x v) := by
  show Expr.Unop s (substF (Expr.size o) o x v) = _
  rfl

theorem subst_Binop (s : BSymbol) (l r : Expr) (x : String) (v : Expr) :
    subst (.Binop s l r) x v = .Binop s (subst l x v) (subst r x v) := by
  show Expr.Binop s (substF (Expr.size l + Expr.size r) l x v)
      (substF (Expr.size l + Expr.size r) r x v) = _
  unfold subst
  congr 1
  · exact substF_fuel_congr _ _ l x v (by omega) le_rfl
  · exact substF_fuel_congr _ _ r x v (by omega) le_rfl

theorem subst_Apply (fn : Expr) (args : List Expr) (x : String) (v : Expr) :
    subst (.Apply fn args) x v = .Apply (subst fn x v) (args.map (fun a => subst a x v)) := by
  unfold subst
  show Expr.Apply (substF (Expr.size fn + Expr.sizeList args) fn x v)
      (args.map (fun a => substF (Expr.size fn + Expr.sizeList args) a x v)) = _
  congr 1
  · exact substF_fuel_congr _ _ fn x v (by omega) le_rfl
  · exact List.map_congr_left (fun a ha => substF_fuel_congr _ _ a x v
      (by have := Expr.size_le_sizeList_of_mem ha; omega) le_rfl)

theorem subst_AssocBinop (s : ASymbol) (es : List Expr) (x : String) (v : Expr) :
    subst (.AssocBinop s es) x v = .AssocBinop s (es.map (fun a => subst a x v)) := by
  unfold subst
  show Expr.AssocBinop s (es.map (fun a => substF (Expr.sizeList es) a x v)) = _
  congr 1
  exact List.map_congr_left (fun a ha => substF_fuel_congr _ _ a x v
    (Expr.size_le_sizeList_of_mem ha) le_rfl)

theorem subst_Quantifier (q : QSymbol) (n : String) (b : Expr) (x : String) (v : Expr) :
    subst (.Quantifier q n b) x v =
      if n = x then .Quantifier q n b
      else if n ∈ freevars v then
        .Quantifier q (gensym n (freevars v))
          (subst (subst b n (.Var (gensym n (freevars v)))) x v)
      else .Quantifier q n (subst b x v) := by
  unfold subst
  show (if n = x then Expr.Quantifier q n b
      else if n ∈ freevars v then
        Expr.Quantifier q (gensym n (freevars v))
          (substF (Expr.size b) (substF (Expr.size b) b n (.Var (gensym n (freevars v)))) x v)
      else Expr.Quantifier q n (substF (Expr.size b) b x v)) = _
  by_cases h : n = x
  · simp [h]
  · by_cases h2 : n ∈ freevars v
    · simp only [if_neg h, if_pos h2]
      congr 1
      exact substF_fuel_congr _ _ _ x v
        (by rw [substF_size_var _ b n _ le_rfl]) (by rw [substF_size_var _ b n _ le_rfl])
    · simp [h, h2]

/- The unifier (`unify` in the source), Martelli-Montanari style with
occurs check and alpha-equivalence handling for quantifiers.  The result
substitution is an ordered list of `(name, Expr)` pairs, built by pushing
the eliminated variable of each variable-elimination step at the back
after the recursive call returns (`x.0.push(...)` in the source).

The Rust recursion has no structural measure (decomposition grows the
constraint set), so the embedding takes fuel: the outer `Option` is
`none` exactly on fuel exhaustion, the inner `Option` is the source's
result (`None` = no unifier). -/
abbrev Substitution := List (String × Expr)

/- `subst_set` of the source: apply `[x ↦ t]` to both sides of every
remaining constraint. -/
def substConstraints (x : String) (t : Expr) (c : List (Expr × Expr)) : List (Expr × Expr) :=
  c.map (fun p => (subst p.1 x t, subst p.2 x t))

/- Guard of the two variable-elimination arms: `s` is a variable whose
name does not occur free in `t` (occurs check). -/
def varElim? (s t : Expr) : Option String :=
  match s with
  | .Var n => if n ∈ freevars t then none else some n
  | _ => none

/- The structural decomposition arms of `unify` (both sides same
variant): they recurse on a reduced constraint set through `rec`, which
`unifyF` instantiates with itself at decremented fuel. -/
def unifyDecompose (rec : List (Expr × Expr) → Option (Option Substitution))
    (s t : Expr) (c : List (Expr × Expr)) : Option (Option Substitution) :=
  match s, t with
  | .Unop ss so1, .Unop ts to1 =>
      if ss = ts then rec ((so1, to1) :: c) else some none
  | .Binop ss sl sr, .Binop ts tl tr =>
      if ss = ts then rec ((sl, tl) :: (sr, tr) :: c) else some none
  | .Apply sf sa, .Apply tf ta =>
      if sa.length = ta.length then rec ((sf, tf) :: (sa.zip ta ++ c)) else some none
  | .AssocBinop ss se, .AssocBinop ts te =>
      if ss = ts ∧ se.length = te.length then rec (se.zip te ++ c) else some none
  | .Quantifier ss sn sb, .Quantifier ts tn tb =>
      if ss = ts then
        (rec ((subst sb sn (.Var (gensym "__unification_var"
                  (freevars (.Quantifier ss sn sb) ++ freevars (.Quantifier ts tn tb)))),
                subst tb tn (.Var (gensym "__unification_var"
                  (freevars (.Quantifier ss sn sb) ++ freevars (.Quantifier ts tn tb))))) :: c)).map
          (fun r => r.bind (fun σ =>
            if σ.any (fun p =>
                  p.1 = gensym "__unification_var"
                      (freevars (.Quantifier ss sn sb) ++ freevars (.Quantifier ts tn tb))
                  || gensym "__unification_var"
                      (freevars (.Quantifier ss sn sb) ++ freevars (.Quantifier ts tn tb)) ∈ freevars p.2)
            then none else some σ))
      else some none
  | _, _ => some none

def unifyF : Nat → List (Expr × Expr) → Option (Option Substitution)
  | _, [] => some (some [])
  | 0, _ :: _ => none
  | f + 1, (s, t) :: c =>
    if s = t then unifyF f c
    else match varElim? s t with
    | some x =>
        (unifyF f (substConstraints x t c)).map (fun r => r.map (fun σ => σ ++ [(x, t)]))
    | none =>
    match varElim? t s with
    | some y =>
        (unifyF f (substConstraints y s c)).map (fun r => r.map (fun σ => σ ++ [(y, s)]))
    | none => unifyDecompose (unifyF f) s t c

/- Application of a result substitution "in order": the fold used by the
source's own test (`ret.0.iter().fold(e, |z, (x, y)| subst(&z, x, y))`),
applying the first pair of the list first. -/
def applySubst (σ : Substitution) (e : Expr) : Expr :=
  σ.foldl (fun z p => subst z p.1 p.2) e

/- A nameless (de Bruijn) view of expressions.  `toDB ctx e` translates
`e` in a context of enclosing binder names (innermost first): a variable
bound by some enclosing quantifier becomes `bvar i` with `i` the distance
to its binder, all other variables stay as named free variables.  Two
expressions are alpha-equivalent (equal up to renaming of bound
variables) exactly when their `toDB []` images coincide; we use it to
state alpha-(in)equivalence of concrete results. -/
inductive DB where
  | bot : DB
  | top : DB
  | fvar (name : String) : DB
  | bvar (i : Nat) : DB
  | app (func : DB) (args : List DB) : DB
  | un (symbol : USymbol) (operand : DB) : DB
  | bin (symbol : BSymbol) (left : DB) (right : DB) : DB
  | assoc (symbol : ASymbol) (exprs : List DB) : DB
  | quant (symbol : QSymbol) (body : DB) : DB

namespace DB

mutual
def beq : DB → DB → Bool
  | .bot, .bot => true
  | .top, .top => true
  | .fvar n, .fvar m => decide (n = m)
  | .bvar i, .bvar j => decide (i = j)
  | .app f a, .app g b => beq f g && beqList a b
  | .un s o, .un t p => decide (s = t) && beq o p
  | .bin s l r, .bin t l' r' => decide (s = t) && beq l l' && beq r r'
  | .assoc s es, .assoc t es' => decide (s = t) && beqList es es'
  | .quant s b, .quant t b' => decide (s = t) && beq b b'
  | _, _ => false
def beqList : List DB → List DB → Bool
  | [], [] => true
  | x :: xs, y :: ys => beq x y && beqList xs ys
  | _, _ => false
end

mutual
theorem dbeq_iff : ∀ a b : DB, beq a b = true ↔ a = b
  | .bot, b => by cases b <;> simp [beq]
  | .top, b => by cases b <;> simp [beq]
  | .fvar n, b => by cases b <;> simp [beq]
  | .bvar i, b => by cases b <;> simp [beq]
  | .app f a, b => by cases b <;> simp [beq, dbeq_iff f, dbeqList_iff a]
  | .un s o, b => by cases b <;> simp [beq, dbeq_iff o]
  | .bin s l r, b => by
      cases b <;> simp [beq, dbeq_iff l, dbeq_iff r] <;> tauto
  | .assoc s es, b => by cases b <;> simp [beq, dbeqList_iff es]
  | .quant s bd, b => by cases b <;> simp [beq, dbeq_iff bd]
theorem dbeqList_iff : ∀ a b : List DB, beqList a b = true ↔ a = b
  | [], b => by cases b <;> simp [beqList]
  | x :: xs, b => by cases b <;> simp [beqList, dbeq_iff x, dbeqList_iff xs]
end

instance : DecidableEq DB := fun a b => decidable_of_iff _ (dbeq_iff a b)

end DB

mutual
def toDB (ctx : List String) : Expr → DB
  | .Contradiction => .bot
  | .Tautology => .top
  | .Var n =>
      match List.findIdx? (fun m => m = n) ctx with
      | some i => .bvar i
      | none => .fvar n
  | .Apply f args => .app (toDB ctx f) (toDBList ctx args)
  | .Unop s o => .un s (toDB ctx o)
  | .Binop s l r => .bin s (toDB ctx l) (toDB ctx r)
  | .AssocBinop s es => .assoc s (toDBList ctx es)
  | .Quantifier q n b => .quant q (toDB (n :: ctx) b)
def toDBList (ctx : List String) : List Expr → List DB
  | [] => []
  | x :: xs => toDB ctx x :: toDBList ctx xs
end

/- Alpha-equivalence: structural equality modulo renaming of
quantifier-bound variables. -/
def alphaEq (a b : Expr) : Prop := toDB [] a = toDB [] b

instance (a b : Expr) : Decidable (alphaEq a b) :=
  decidable_of_iff (toDB [] a = toDB [] b) Iff.rfl

/- The generic fixed-point tree transformer (`transform_expr` in the
source).  `transform_expr_inner` applies the rule at the root, then
recurses into the children of the rule's output (so it is not
structurally recursive and takes fuel: children are processed at
decremented fuel), or-ing all the `changed` flags.  The driver
(`transform_expr`) re-runs the inner pass until it reports no change.
`none` means fuel exhaustion, which mirrors non-termination of the Rust
original. -/
/- Traverse a list of sub-expressions with a (fuel-curried) inner
transformation, collecting results and or-ing the `changed` flags
(the `unzip`/`any` iterator combination of the source). -/
def optionTraverse (g : Expr → Option (Expr × Bool)) : List Expr → Option (List Expr × Bool)
  | [] => some ([], false)
  | x :: xs => do
      let r1 ← g x
      let r2 ← optionTraverse g xs
      some (r1.1 :: r2.1, r1.2 || r2.2)

def transform_expr_inner (trans : Expr → Expr × Bool) : Nat → Expr → Option (Expr × Bool)
  | 0, _ => none
  | f + 1, e =>
      match (trans e).1 with
      | .Contradiction => some (.Contradiction, (trans e).2 || false)
      | .Tautology => some (.Tautology, (trans e).2 || false)
      | .Var n => some (.Var n, (trans e).2 || false)
      | .Apply fn args => do
          let r1 ← transform_expr_inner trans f fn
          let r2 ← optionTraverse (fun a => transform_expr_inner trans f a) args
          some (.Apply r1.1 r2.1, (trans e).2 || (r1.2 || r2.2))
      | .Unop s o => do
          let r ← transform_expr_inner trans f o
          some (.Unop s r.1, (trans e).2 || r.2)
      | .Binop s l r => do
          let r1 ← transform_expr_inner trans f l
          let r2 ← transform_expr_inner trans f r
          some (.Binop s r1.1 r2.1, (trans e).2 || (r1.2 || r2.2))
      | .AssocBinop s es => do
          let r ← optionTraverse (fun a => transform_expr_inner trans f a) es
          some (.AssocBinop s r.1, (trans e).2 || r.2)
      | .Quantifier q n b => do
          let r ← transform_expr_inner trans f b
          some (.Quantifier q n r.1, (trans e).2 || r.2)

/- The driver loop: keep re-running the inner pass while it reports a
change. -/
def transform_expr (trans : Expr → Expr × Bool) : Nat → Expr → Option Expr
  | 0, _ => none
  | f + 1, e =>
      match transform_expr_inner trans f e with
      | none => none
      | some (r, true) => transform_expr trans f r
      | some (r, false) => some r

/- The local rule of `sort_commutative_ops`: swap the operands of a
commutative `Binop` so the smaller comes first, sort the operand list of
a commutative `AssocBinop`.  NOTE (faithful to the source): the `Binop`
branch reports `changed = true` whenever the symbol is commutative, even
when no swap happened; the `AssocBinop` branch reports `true` only when
the list was actually out of order. -/
def isSortedExprs : List Expr → Bool
  | [] => true
  | [_] => true
  | x :: y :: rest => Expr.ble x y && isSortedExprs (y :: rest)

def sortExprs (l : List Expr) : List Expr := l.mergeSort Expr.ble

def sort_rule : Expr → Expr × Bool
  | .Binop symbol left right =>
      if symbol.is_commutative then
        if Expr.ble left right then (.Binop symbol left right, true)
        else (.Binop symbol right left, true)
      else (.Binop symbol left right, false)
  | .AssocBinop symbol exprs =>
      if symbol.is_commutative && !isSortedExprs exprs then
        (.AssocBinop symbol (sortExprs exprs), true)
      else (.AssocBinop symbol exprs, false)
  | e => (e, false)

def sort_commutative_ops (fuel : Nat) (e : Expr) : Option Expr :=
  transform_expr sort_rule fuel e

/- The local rule of `combine_associative_ops`: splice the element lists
of children that are `AssocBinop`s with the same symbol, reporting
`changed` exactly when at least one child was spliced. -/
def combineSplice (symbol1 : ASymbol) : List Expr → List Expr × Bool
  | [] => ([], false)
  | .AssocBinop symbol2 exprs2 :: rest =>
      let r := combineSplice symbol1 rest
      if symbol2 = symbol1 then (exprs2 ++ r.1, true)
      else (.AssocBinop symbol2 exprs2 :: r.1, r.2)
  | x :: rest =>
      let r := combineSplice symbol1 rest
      (x :: r.1, r.2)

def combine_rule : Expr → Expr × Bool
  | .AssocBinop symbol1 exprs1 =>
      ((.AssocBinop symbol1 (combineSplice symbol1 exprs1).1 : Expr),
        (combineSplice symbol1 exprs1).2)
  | e => (e, false)

def combine_associative_ops (fuel : Nat) (e : Expr) : Option Expr :=
  transform_expr combine_rule fuel e

/- Flatness: no `AssocBinop` node has a child that is an `AssocBinop`
with the same symbol. -/
def noSameOpChild (s : ASymbol) (es : List Expr) : Bool :=
  es.all (fun x => match x with | .AssocBinop s2 _ => decide (s2 ≠ s) | _ => true)

mutual
def flat : Expr → Bool
  | .Contradiction => true
  | .Tautology => true
  | .Var _ => true
  | .Apply f args => flat f && flatList args
  | .Unop _ o => flat o
  | .Binop _ l r => flat l && flat r
  | .AssocBinop s es => noSameOpChild s es && flatList es
  | .Quantifier _ _ b => flat b
def flatList : List Expr → Bool
  | [] => true
  | x :: xs => flat x && flatList xs
end

/- An expression exhibiting the capture defect of `subst`: in
`∀a0. ∀a. a0` the inner body refers to the *outer* binder, and `a`
occurs free at the top level.  Substituting any non-occurring variable
by this expression inside itself renames the inner binder `a` to
`gensym "a" (freevars value) = "a0"` (the avoid set contains only the
free variables of the value, not those of the body), which captures the
occurrence of `a0`. -/
def captureExample : Expr :=
  .AssocBinop .And [.Var "a",
    .Quantifier .Forall "a0" (.Quantifier .Forall "a" (.Var "a0"))]

def captureExampleResult : Expr :=
  .AssocBinop .And [.Var "a",
    .Quantifier .Forall "a0" (.Quantifier .Forall "a0" (.Var "a0"))]

/-- C1: refuted on the code.  On the single constraint
`z ≡ (a ∧ ∀a0. ∀a. a0)` the unifier succeeds with
`σ = [(z, a ∧ ∀a0. ∀a. a0)]`, but applying the pairs of σ (a single
pair, so "in order" is unambiguous) to both sides yields
`a ∧ ∀a0. ∀a. a0` and `a ∧ ∀a0. ∀a0. a0`, which differ in binding
structure and are not structurally equal even modulo alpha-equivalence
for quantifier subtrees: `subst` captured the bound occurrence of `a0`
while alpha-renaming the inner binder.  This contradicts the spec's
soundness guarantee, so the claim describes intended behavior which the
code fails to implement. -/
theorem unify_soundness_violation :
    unifyF 2 [(.Var "z", captureExample)] = some (some [("z", captureExample)])
    ∧ applySubst [("z", captureExample)] (.Var "z") = captureExample
    ∧ applySubst [("z", captureExample)] captureExample = captureExampleResult
    ∧ captureExample ≠ captureExampleResult
    ∧ ¬ alphaEq captureExample captureExampleResult := by
  refine ⟨by decide, by decide, by decide, by decide, ?_⟩
  show ¬ (toDB [] captureExample = toDB [] captureExampleResult)
  decide

/-- C9: `subst` is not conservative on non-occurring names.  With
`e = ∀a. a`, `x = "z"` (not free in `e`) and `v = Var "a"`, `subst`
alpha-renames the binder because `"a"` is free in `v`, producing
`∀a0. a0 ≠ e`. -/
theorem subst_not_conservative :
    "z" ∉ freevars (Expr.Quantifier .Forall "a" (.Var "a"))
    ∧ subst (Expr.Quantifier .Forall "a" (.Var "a")) "z" (.Var "a")
        = Expr.Quantifier .Forall "a0" (.Var "a0")
    ∧ Expr.Quantifier .Forall "a0" (.Var "a0") ≠ Expr.Quantifier .Forall "a" (.Var "a") := by
  decide

/-- C6: the alpha-renaming case of `subst`: for a quantifier with
`bound ≠ name` and `bound ∈ freevars value`, the result rebinds
`fresh = gensym bound (freevars value)` and substitutes in the renamed
body. -/
theorem subst_quantifier_rename (q : QSymbol) (bound : String) (body : Expr)
    (name : String) (value : Expr) (h1 : bound ≠ name) (h2 : bound ∈ freevars value) :
    subst (.Quantifier q bound body) name value
      = .Quantifier q (gensym bound (freevars value))
          (subst (subst body bound (.Var (gensym bound (freevars value)))) name value) := by
  rw [subst_Quantifier]
  simp [h1, h2]

/-- Witness for C6, instantiating the claim's own example:
`subst(forall x, x & y, "y", Var x) = forall x0, x0 & x`. -/
theorem subst_quantifier_rename_witness :
    ("x" ≠ "y" ∧ "x" ∈ freevars (Expr.Var "x"))
    ∧ subst (Expr.Quantifier .Forall "x" (.AssocBinop .And [.Var "x", .Var "y"])) "y" (.Var "x")
        = Expr.Quantifier .Forall "x0" (.AssocBinop .And [.Var "x0", .Var "x"]) :=
  ⟨⟨by decide, by decide⟩,
    (subst_quantifier_rename .Forall "x" (.AssocBinop .And [.Var "x", .Var "y"]) "y" (.Var "x")
        (by decide) (by decide)).trans (by decide)⟩

/-- C3: refuted on the code.  On `Binop { Mult, a, b }` whose operands
are already in order (`a ≤ b`), the local rule of `sort_commutative_ops`
still reports `changed = true`: the `Binop` branch returns `true`
unconditionally whenever the symbol is commutative, unlike the
`AssocBinop` branch which checks `is_sorted`.  Fed to the fixed-point
driver, this rule therefore violates the progress-free contract. -/
theorem sort_rule_changed_flag_bug :
    Expr.ble (.Var "a") (.Var "b") = true
    ∧ sort_rule (.Binop .Mult (.Var "a") (.Var "b"))
        = (.Binop .Mult (.Var "a") (.Var "b"), true) := by
  decide

/- On `a + b` with operands already in order, one inner pass of the sort
rule either runs out of fuel or reproduces the input with
`changed = true`. -/
theorem sort_inner_plus : ∀ f : Nat,
    transform_expr_inner sort_rule f (.Binop .Plus (.Var "a") (.Var "b")) = none
    ∨ transform_expr_inner sort_rule f (.Binop .Plus (.Var "a") (.Var "b"))
        = some (.Binop .Plus (.Var "a") (.Var "b"), true) := by
  intro f
  match f with
  | 0 => exact Or.inl rfl
  | 1 => exact Or.inl (by decide)
  | f + 2 =>
      right
      have hb : Expr.ble (.Var "a") (.Var "b") = true := by decide
      simp [transform_expr_inner, sort_rule, hb, BSymbol.is_commutative]

/-- C2: refuted on the code.  `sort_commutative_ops` is not total: on
the well-formed input `Binop { Plus, Var a, Var b }` (operands already
in order) the local rule reports `changed = true` on every iteration, so
the fixed-point driver never reaches a fixed point; for every fuel the
run is cut off unfinished — the Rust original loops forever. -/
theorem sort_commutative_ops_diverges : ∀ fuel : Nat,
    sort_commutative_ops fuel (.Binop .Plus (.Var "a") (.Var "b")) = none := by
  intro fuel
  induction fuel with
  | zero => rfl
  | succ f ih =>
      show transform_expr sort_rule (f + 1) _ = none
      rcases sort_inner_plus f with h | h
      · simp [transform_expr, h]
      · simp [transform_expr, h]
        exact ih

/- If the traversal function leaves every member unchanged and
unflagged, so does the whole list traversal. -/
theorem optionTraverse_noop (g : Expr → Option (Expr × Bool)) :
    ∀ l : List Expr, (∀ a ∈ l, g a = some (a, false)) → optionTraverse g l = some (l, false) := by
  intro l
  induction l with
  | nil => intro _; rfl
  | cons x xs ihl =>
      intro hl
      have hx := hl x (by simp)
      have hxs := ihl (fun a ha => hl a (by simp [ha]))
      simp [optionTraverse, hx, hxs]

/- A rule that never reports a change leaves every node unchanged
through one inner pass, given sufficient fuel. -/
theorem transform_inner_noop (trans : Expr → Expr × Bool) (h : ∀ n, trans n = (n, false)) :
    ∀ f : Nat, ∀ e : Expr, Expr.size e ≤ f → transform_expr_inner trans f e = some (e, false) := by
  intro f
  induction f with
  | zero => intro e he; exact absurd he (by have := Expr.size_pos e; omega)
  | succ f ih =>
      intro e he
      cases e with
      | Contradiction => simp [transform_expr_inner, h]
      | Tautology => simp [transform_expr_inner, h]
      | Var n => simp [transform_expr_inner, h]
      | Apply fn args =>
          simp only [Expr.size] at he
          have hfn := ih fn (by omega)
          have hargs := optionTraverse_noop _ args
            (fun a ha => ih a (by have := Expr.size_le_sizeList_of_mem ha; omega))
          simp [transform_expr_inner, h, hfn, hargs]
      | Unop s o =>
          simp only [Expr.size] at he
          simp [transform_expr_inner, h, ih o (by omega)]
      | Binop s l r =>
          simp only [Expr.size] at he
          simp [transform_expr_inner, h, ih l (by omega), ih r (by omega)]
      | AssocBinop s es =>
          simp only [Expr.size] at he
          have hes := optionTraverse_noop _ es
            (fun a ha => ih a (by have := Expr.size_le_sizeList_of_mem ha; omega))
          simp [transform_expr_inner, h, hes]
      | Quantifier q n b =>
          simp only [Expr.size] at he
          simp [transform_expr_inner, h, ih b (by omega)]

/-- C10: `transform_expr` is the identity under a no-op rule: if the
rule returns `(n, false)` on every node, the driver returns the input
unchanged (for any fuel sufficient for one inner pass over the tree). -/
theorem transform_expr_noop_rule (trans : Expr → Expr × Bool)
    (h : ∀ n, trans n = (n, false)) (e : Expr) (fuel : Nat)
    (hf : Expr.size e ≤ fuel) :
    transform_expr trans (fuel + 1) e = some e := by
  have hstep := transform_inner_noop trans h fuel e hf
  simp [transform_expr, hstep]

/-- Witness for C10 at the rule `fun n => (n, false)` and input `Var a`. -/
theorem transform_expr_noop_rule_witness :
    ((∀ n : Expr, (fun m : Expr => (m, false)) n = (n, false))
      ∧ Expr.size (.Var "a") ≤ 1)
    ∧ transform_expr (fun m : Expr => (m, false)) 2 (.Var "a") = some (.Var "a") :=
  ⟨⟨fun _ => rfl, by decide⟩,
    transform_expr_noop_rule (fun m : Expr => (m, false)) (fun _ => rfl) (.Var "a") 1 (by decide)⟩

/- A size-based induction principle for `Expr` (the nested `List Expr`
fields make the structural recursor awkward; `subst`'s recursion through
its own output also needs size-based reasoning). -/
theorem expr_size_induction (P : Expr → Prop)
    (step : ∀ e, (∀ e', Expr.size e' < Expr.size e → P e') → P e) : ∀ e, P e := by
  have key : ∀ N, ∀ e, Expr.size e ≤ N → P e := by
    intro N
    induction N with
    | zero => intro e he; have := Expr.size_pos e; omega
    | succ N ih => intro e _; exact step e (fun e' h' => ih e' (by omega))
  exact fun e => key (Expr.size e) e le_rfl

theorem size_subst_var (b : Expr) (m y : String) :
    Expr.size (subst b m (.Var y)) = Expr.size b :=
  substF_size_var (Expr.size b) b m y le_rfl

/- Free variables of a substitution result: every free variable of
`subst e x v` is a free variable of `e` other than `x`, or a free
variable of `v`.  (The converse can fail: the renaming case may capture
variables, see `subst_not_conservative` and `unify_soundness_violation`;
the containment direction holds regardless.) -/
theorem freevars_subst :
    ∀ e : Expr, ∀ (x : String) (v : Expr) (n : String), n ∈ freevars (subst e x v) →
      (n ∈ freevars e ∧ n ≠ x) ∨ n ∈ freevars v := by
  intro e
  induction e using expr_size_induction with
  | step e IH =>
    intro x v n hn
    cases e with
    | Contradiction => simp [subst_Contradiction, freevars] at hn
    | Tautology => simp [subst_Tautology, freevars] at hn
    | Var m =>
        rw [subst_Var] at hn
        by_cases h : m = x
        · simp [h] at hn; exact Or.inr hn
        · simp [h, freevars] at hn
          subst hn
          exact Or.inl ⟨by simp [freevars], h⟩
    | Apply fn args =>
        rw [subst_Apply] at hn
        simp only [freevars, List.mem_append, mem_freevarsList] at hn
        rcases hn with hn | ⟨y, hy, hn⟩
        · rcases IH fn (by simp [Expr.size]; omega) x v n hn with ⟨h1, h2⟩ | h
          · exact Or.inl ⟨by simp [freevars, h1], h2⟩
          · exact Or.inr h
        · rcases List.mem_map.mp hy with ⟨a, ha, rfl⟩
          have hlt : Expr.size a < Expr.size (Expr.Apply fn args) := by
            have := Expr.size_le_sizeList_of_mem ha; simp [Expr.size]; omega
          rcases IH a hlt x v n hn with ⟨h1, h2⟩ | h
          · exact Or.inl ⟨by simp [freevars, mem_freevarsList]; exact Or.inr ⟨a, ha, h1⟩, h2⟩
          · exact Or.inr h
    | Unop s o =>
        rw [subst_Unop] at hn
        simp only [freevars] at hn
        rcases IH o (by simp [Expr.size]) x v n hn with ⟨h1, h2⟩ | h
        · exact Or.inl ⟨by simp [freevars, h1], h2⟩
        · exact Or.inr h
    | Binop s l r =>
        rw [subst_Binop] at hn
        simp only [freevars, List.mem_append] at hn
        rcases hn with hn | hn
        · rcases IH l (by simp [Expr.size]; omega) x v n hn with ⟨h1, h2⟩ | h
          · exact Or.inl ⟨by simp [freevars, h1], h2⟩
          · exact Or.inr h
        · rcases IH r (by simp [Expr.size]; omega) x v n hn with ⟨h1, h2⟩ | h
          · exact Or.inl ⟨by simp [freevars, h1], h2⟩
          · exact Or.inr h
    | AssocBinop s es =>
        rw [subst_AssocBinop] at hn
        simp only [freevars, mem_freevarsList] at hn
        rcases hn with ⟨y, hy, hn⟩
        rcases List.mem_map.mp hy with ⟨a, ha, rfl⟩
        have hlt : Expr.size a < Expr.size (Expr.AssocBinop s es) := by
          have := Expr.size_le_sizeList_of_mem ha; simp [Expr.size]; omega
        rcases IH a hlt x v n hn with ⟨h1, h2⟩ | h
        · exact Or.inl ⟨by simp [freevars, mem_freevarsList]; exact ⟨a, ha, h1⟩, h2⟩
        · exact Or.inr h
    | Quantifier q m b =>
        rw [subst_Quantifier] at hn
        have hblt : Expr.size b < Expr.size (Expr.Quantifier q m b) := by simp [Expr.size]
        by_cases h : m = x
        · rw [if_pos h] at hn
          simp only [freevars, List.mem_filter, decide_eq_true_eq] at hn
          exact Or.inl ⟨by simp [freevars, List.mem_filter]; exact hn, by rw [← h]; exact hn.2⟩
        · rw [if_neg h] at hn
          by_cases h2 : m ∈ freevars v
          · rw [if_pos h2] at hn
            simp only [freevars, List.mem_filter, decide_eq_true_eq] at hn
            obtain ⟨hn1, hn2⟩ := hn
            have hsz : Expr.size (subst b m (.Var (gensym m (freevars v))))
                < Expr.size (Expr.Quantifier q m b) := by
              rw [size_subst_var]; exact hblt
            rcases IH _ hsz x v n hn1 with ⟨hb1, hb2⟩ | hv
            · rcases IH b hblt m (.Var (gensym m (freevars v))) n hb1 with ⟨hc1, hc2⟩ | hv2
              · exact Or.inl ⟨by simp [freevars, List.mem_filter, hc1, hc2], hb2⟩
              · simp only [freevars, List.mem_singleton] at hv2
                exact absurd hv2 hn2
            · exact Or.inr hv
          · rw [if_neg h2] at hn
            simp only [freevars, List.mem_filter, decide_eq_true_eq] at hn
            obtain ⟨hn1, hn2⟩ := hn
            rcases IH b hblt x v n hn1 with ⟨hb1, hb2⟩ | hv
            · exact Or.inl ⟨by simp [freevars, List.mem_filter, hb1, hn2], hb2⟩
            · exact Or.inr hv

/- Well-formedness per the spec's data-model invariants: the only
machine-checkable one is that every `AssocBinop` has at least two
elements (finiteness and acyclicity are automatic for an inductive
value). -/
mutual
def well_formed : Expr → Bool
  | .Contradiction => true
  | .Tautology => true
  | .Var _ => true
  | .Apply f args => well_formed f && wfList args
  | .Unop _ o => well_formed o
  | .Binop _ l r => well_formed l && well_formed r
  | .AssocBinop _ es => decide (2 ≤ es.length) && wfList es
  | .Quantifier _ _ b => well_formed b
def wfList : List Expr → Bool
  | [] => true
  | x :: xs => well_formed x && wfList xs
end

theorem wfList_iff {l : List Expr} : wfList l = true ↔ ∀ a ∈ l, well_formed a = true := by
  induction l with
  | nil => simp [wfList]
  | cons x xs ih => simp [wfList, ih]

theorem well_formed_subst :
    ∀ e : Expr, ∀ (x : String) (v : Expr),
      well_formed e = true → well_formed v = true → well_formed (subst e x v) = true := by
  intro e
  induction e using expr_size_induction with
  | step e IH =>
    intro x v he hv
    cases e with
    | Contradiction => simpa [subst_Contradiction] using he
    | Tautology => simpa [subst_Tautology] using he
    | Var m =>
        rw [subst_Var]
        by_cases h : m = x <;> simp [h, hv, well_formed]
    | Apply fn args =>
        rw [subst_Apply]
        simp only [well_formed, Bool.and_eq_true, wfList_iff] at he ⊢
        refine ⟨IH fn (by simp [Expr.size]; omega) x v he.1 hv, ?_⟩
        intro a ha
        rcases List.mem_map.mp ha with ⟨b, hb, rfl⟩
        have hlt : Expr.size b < Expr.size (Expr.Apply fn args) := by
          have := Expr.size_le_sizeList_of_mem hb; simp [Expr.size]; omega
        exact IH b hlt x v (he.2 b hb) hv
    | Unop s o =>
        rw [subst_Unop]
        simp only [well_formed] at he ⊢
        exact IH o (by simp [Expr.size]) x v he hv
    | Binop s l r =>
        rw [subst_Binop]
        simp only [well_formed, Bool.and_eq_true] at he ⊢
        exact ⟨IH l (by simp [Expr.size]; omega) x v he.1 hv,
          IH r (by simp [Expr.size]; omega) x v he.2 hv⟩
    | AssocBinop s es =>
        rw [subst_AssocBinop]
        simp only [well_formed, Bool.and_eq_true, wfList_iff, List.length_map,
          decide_eq_true_eq] at he ⊢
        refine ⟨he.1, ?_⟩
        intro a ha
        rcases List.mem_map.mp ha with ⟨b, hb, rfl⟩
        have hlt : Expr.size b < Expr.size (Expr.AssocBinop s es) := by
          have := Expr.size_le_sizeList_of_mem hb; simp [Expr.size]; omega
        exact IH b hlt x v (he.2 b hb) hv
    | Quantifier q m b =>
        rw [subst_Quantifier]
        simp only [well_formed] at he
        have hblt : Expr.size b < Expr.size (Expr.Quantifier q m b) := by simp [Expr.size]
        by_cases h : m = x
        · simpa [h, well_formed] using he
        · by_cases h2 : m ∈ freevars v
          · simp only [if_neg h, if_pos h2, well_formed]
            have hb0 : well_formed (subst b m (.Var (gensym m (freevars v)))) = true :=
              IH b hblt m _ he (by simp [well_formed])
            have hsz : Expr.size (subst b m (.Var (gensym m (freevars v))))
                < Expr.size (Expr.Quantifier q m b) := by
              rw [size_subst_var]; exact hblt
            exact IH _ hsz x v hb0 hv
          · simp only [if_neg h, if_neg h2, well_formed]
            exact IH b hblt x v he hv

/-- C5: substitution preserves well-formedness, and the free variables
of `subst e x v` are contained in `(freevars e \ {x}) ∪ freevars v`. -/
theorem subst_well_formed_freevars (e : Expr) (x : String) (v : Expr)
    (he : well_formed e = true) (hv : well_formed v = true) :
    well_formed (subst e x v) = true
    ∧ ∀ n ∈ freevars (subst e x v), (n ∈ freevars e ∧ n ≠ x) ∨ n ∈ freevars v :=
  ⟨well_formed_subst e x v he hv, fun n hn => freevars_subst e x v n hn⟩

/-- Witness for C5 at `e = forall y, x & y`, `x := "x"`, `v = Var y ∧ ⊥`:
the hypotheses evaluate by `decide` and the theorem applies. -/
theorem subst_well_formed_freevars_witness :
    (well_formed (Expr.Quantifier .Forall "y" (.AssocBinop .And [.Var "x", .Var "y"])) = true
      ∧ well_formed (Expr.AssocBinop .And [.Var "y", .Contradiction]) = true)
    ∧ (well_formed (subst (Expr.Quantifier .Forall "y" (.AssocBinop .And [.Var "x", .Var "y"]))
          "x" (.AssocBinop .And [.Var "y", .Contradiction])) = true
      ∧ ∀ n ∈ freevars (subst (Expr.Quantifier .Forall "y" (.AssocBinop .And [.Var "x", .Var "y"]))
          "x" (.AssocBinop .And [.Var "y", .Contradiction])),
          (n ∈ freevars (Expr.Quantifier .Forall "y" (.AssocBinop .And [.Var "x", .Var "y"])) ∧ n ≠ "x")
          ∨ n ∈ freevars (Expr.AssocBinop .And [.Var "y", .Contradiction])) :=
  ⟨⟨by decide, by decide⟩,
    subst_well_formed_freevars _ "x" _ (by decide) (by decide)⟩

/- All variable names occurring free on either side of any constraint. -/
def cvars : List (Expr × Expr) → List String
  | [] => []
  | p :: c => freevars p.1 ++ freevars p.2 ++ cvars c

theorem mem_cvars_left {s t : Expr} {c : List (Expr × Expr)} {n : String}
    (h : n ∈ freevars s) : n ∈ cvars ((s, t) :: c) := by simp [cvars, h]

theorem mem_cvars_right {s t : Expr} {c : List (Expr × Expr)} {n : String}
    (h : n ∈ freevars t) : n ∈ cvars ((s, t) :: c) := by simp [cvars, h]

theorem mem_cvars_tail {p : Expr × Expr} {c : List (Expr × Expr)} {n : String}
    (h : n ∈ cvars c) : n ∈ cvars (p :: c) := by simp [cvars, h]

theorem varElim?_some {s t : Expr} {x : String} (h : varElim? s t = some x) :
    s = .Var x ∧ x ∉ freevars t := by
  cases s with
  | Var n =>
      simp only [varElim?] at h
      by_cases hm : n ∈ freevars t
      · simp [hm] at h
      · simp [hm] at h
        subst h
        exact ⟨rfl, hm⟩
  | Contradiction => exact absurd h (by simp [varElim?])
  | Tautology => exact absurd h (by simp [varElim?])
  | Apply fn args => exact absurd h (by simp [varElim?])
  | Unop s o => exact absurd h (by simp [varElim?])
  | Binop s l r => exact absurd h (by simp [varElim?])
  | AssocBinop s es => exact absurd h (by simp [varElim?])
  | Quantifier q m b => exact absurd h (by simp [varElim?])

theorem mem_cvars_substConstraints {x : String} {t : Expr} :
    ∀ {c : List (Expr × Expr)} {n : String}, n ∈ cvars (substConstraints x t c) →
      (n ∈ cvars c ∧ n ≠ x) ∨ n ∈ freevars t := by
  intro c
  induction c with
  | nil => intro n hn; simp [substConstraints, cvars] at hn
  | cons p c ih =>
      intro n hn
      simp only [substConstraints, List.map_cons, cvars, List.mem_append] at hn
      rcases hn with (hn | hn) | hn
      · rcases freevars_subst p.1 x t n hn with ⟨h1, h2⟩ | h
        · exact Or.inl ⟨by simp [cvars, h1], h2⟩
        · exact Or.inr h
      · rcases freevars_subst p.2 x t n hn with ⟨h1, h2⟩ | h
        · exact Or.inl ⟨by simp [cvars, h1], h2⟩
        · exact Or.inr h
      · rcases ih hn with ⟨h1, h2⟩ | h
        · exact Or.inl ⟨mem_cvars_tail h1, h2⟩
        · exact Or.inr h

theorem cvars_append : ∀ c1 c2 : List (Expr × Expr), cvars (c1 ++ c2) = cvars c1 ++ cvars c2 := by
  intro c1 c2
  induction c1 with
  | nil => simp [cvars]
  | cons p c ih => simp [cvars, ih]

theorem exists_of_mem_cvars : ∀ {c : List (Expr × Expr)} {n : String},
    n ∈ cvars c → ∃ p ∈ c, n ∈ freevars p.1 ∨ n ∈ freevars p.2 := by
  intro c
  induction c with
  | nil => intro n hn; simp [cvars] at hn
  | cons p c ih =>
      intro n hn
      simp only [cvars, List.mem_append] at hn
      rcases hn with (hn | hn) | hn
      · exact ⟨p, by simp, Or.inl hn⟩
      · exact ⟨p, by simp, Or.inr hn⟩
      · obtain ⟨q, hq, hq2⟩ := ih hn
        exact ⟨q, by simp [hq], hq2⟩

/- Domain invariant of the unifier: on success, the names bound by the
result substitution are pairwise distinct and all occur free in the
input constraints. -/
theorem unify_dom_invariant : ∀ (f : Nat) (c : List (Expr × Expr)) (σ : Substitution),
    unifyF f c = some (some σ) →
    (σ.map Prod.fst).Nodup ∧ ∀ p ∈ σ, p.1 ∈ cvars c := by
  intro f
  induction f with
  | zero =>
      intro c σ h
      cases c with
      | nil =>
          simp only [unifyF, Option.some.injEq] at h
          subst h
          exact ⟨List.nodup_nil, by simp⟩
      | cons p c => exact absurd h (by simp [unifyF])
  | succ f ih =>
      intro c σ h
      cases c with
      | nil =>
          simp only [unifyF, Option.some.injEq] at h
          subst h
          exact ⟨List.nodup_nil, by simp⟩
      | cons p c =>
          obtain ⟨s, t⟩ := p
          rw [unifyF] at h
          by_cases hst : s = t
          · rw [if_pos hst] at h
            obtain ⟨h1, h2⟩ := ih c σ h
            exact ⟨h1, fun q hq => mem_cvars_tail (h2 q hq)⟩
          · rw [if_neg hst] at h
            cases hv1 : varElim? s t with
            | some x =>
                obtain ⟨hs, hocc⟩ := varElim?_some hv1
                simp only [hv1] at h
                rw [Option.map_eq_some'] at h
                obtain ⟨r, hr, hmap⟩ := h
                cases r with
                | none => simp at hmap
                | some σ0 =>
                    simp only [Option.map_some', Option.some.injEq] at hmap
                    subst hmap
                    obtain ⟨h1, h2⟩ := ih _ σ0 hr
                    have hxnot : x ∉ σ0.map Prod.fst := by
                      intro hx
                      rcases List.mem_map.mp hx with ⟨q, hq, hq1⟩
                      rcases mem_cvars_substConstraints (h2 q hq) with ⟨_, hne⟩ | hmem
                      · exact hne hq1
                      · rw [hq1] at hmem; exact hocc hmem
                    constructor
                    · rw [List.map_append]
                      refine List.Nodup.append h1 (by simp) ?_
                      intro a ha hb
                      simp only [List.map_cons, List.map_nil, List.mem_singleton] at hb
                      subst hb
                      exact hxnot ha
                    · intro q hq
                      rcases List.mem_append.mp hq with hq | hq
                      · rcases mem_cvars_substConstraints (h2 q hq) with ⟨hmem, _⟩ | hmem
                        · exact mem_cvars_tail hmem
                        · exact mem_cvars_right hmem
                      · simp only [List.mem_singleton] at hq
                        subst hq
                        exact mem_cvars_left (by rw [hs]; simp [freevars])
            | none =>
                simp only [hv1] at h
                cases hv2 : varElim? t s with
                | some y =>
                    obtain ⟨ht, hocc⟩ := varElim?_some hv2
                    simp only [hv2] at h
                    rw [Option.map_eq_some'] at h
                    obtain ⟨r, hr, hmap⟩ := h
                    cases r with
                    | none => simp at hmap
                    | some σ0 =>
                        simp only [Option.map_some', Option.some.injEq] at hmap
                        subst hmap
                        obtain ⟨h1, h2⟩ := ih _ σ0 hr
                        have hynot : y ∉ σ0.map Prod.fst := by
                          intro hy
                          rcases List.mem_map.mp hy with ⟨q, hq, hq1⟩
                          rcases mem_cvars_substConstraints (h2 q hq) with ⟨_, hne⟩ | hmem
                          · exact hne hq1
                          · rw [hq1] at hmem; exact hocc hmem
                        constructor
                        · rw [List.map_append]
                          refine List.Nodup.append h1 (by simp) ?_
                          intro a ha hb
                          simp only [List.map_cons, List.map_nil, List.mem_singleton] at hb
                          subst hb
                          exact hynot ha
                        · intro q hq
                          rcases List.mem_append.mp hq with hq | hq
                          · rcases mem_cvars_substConstraints (h2 q hq) with ⟨hmem, _⟩ | hmem
                            · exact mem_cvars_tail hmem
                            · exact mem_cvars_left hmem
                          · simp only [List.mem_singleton] at hq
                            subst hq
                            exact mem_cvars_right (by rw [ht]; simp [freevars])
                | none =>
                    simp only [hv2] at h
                    rw [unifyDecompose.eq_def] at h
                    split at h
                    · -- Unop / Unop
                      split at h
                      · obtain ⟨h1, h2⟩ := ih _ σ h
                        refine ⟨h1, fun q hq => ?_⟩
                        have := h2 q hq
                        simp only [cvars, List.mem_append, freevars] at this ⊢
                        tauto
                      · simp at h
                    · -- Binop / Binop
                      split at h
                      · obtain ⟨h1, h2⟩ := ih _ σ h
                        refine ⟨h1, fun q hq => ?_⟩
                        have := h2 q hq
                        simp only [cvars, List.mem_append, freevars] at this ⊢
                        tauto
                      · simp at h
                    · -- Apply / Apply
                      split at h
                      · obtain ⟨h1, h2⟩ := ih _ σ h
                        refine ⟨h1, fun q hq => ?_⟩
                        have hmem := h2 q hq
                        simp only [cvars, List.mem_append, cvars_append] at hmem
                        rcases hmem with (hmem | hmem) | hmem | hmem
                        · exact mem_cvars_left (by simp [freevars, hmem])
                        · exact mem_cvars_right (by simp [freevars, hmem])
                        · obtain ⟨qq, hqq, hqq2⟩ := exists_of_mem_cvars hmem
                          obtain ⟨hz1, hz2⟩ := List.of_mem_zip (by exact hqq)
                          rcases hqq2 with hz | hz
                          · exact mem_cvars_left
                              (by simp [freevars, mem_freevarsList]; exact Or.inr ⟨qq.1, hz1, hz⟩)
                          · exact mem_cvars_right
                              (by simp [freevars, mem_freevarsList]; exact Or.inr ⟨qq.2, hz2, hz⟩)
                        · exact mem_cvars_tail hmem
                      · simp at h
                    · -- AssocBinop / AssocBinop
                      split at h
                      · obtain ⟨h1, h2⟩ := ih _ σ h
                        refine ⟨h1, fun q hq => ?_⟩
                        have hmem := h2 q hq
                        rw [cvars_append, List.mem_append] at hmem
                        rcases hmem with hmem | hmem
                        · obtain ⟨qq, hqq, hqq2⟩ := exists_of_mem_cvars hmem
                          obtain ⟨hz1, hz2⟩ := List.of_mem_zip (by exact hqq)
                          rcases hqq2 with hz | hz
                          · exact mem_cvars_left
                              (by simp [freevars, mem_freevarsList]; exact ⟨qq.1, hz1, hz⟩)
                          · exact mem_cvars_right
                              (by simp [freevars, mem_freevarsList]; exact ⟨qq.2, hz2, hz⟩)
                        · exact mem_cvars_tail hmem
                      · simp at h
                    · -- Quantifier / Quantifier
                      rename_i ss sn sb ts tn tb
                      split at h
                      · rw [Option.map_eq_some'] at h
                        obtain ⟨r, hr, hmap⟩ := h
                        cases r with
                        | none => simp at hmap
                        | some σ0 =>
                            simp only [Option.bind] at hmap
                            split at hmap
                            · exact absurd hmap (by simp)
                            · rename_i hany
                              injection hmap with hmap2
                              subst hmap2
                              obtain ⟨h1, h2⟩ := ih _ _ hr
                              refine ⟨h1, fun q hq => ?_⟩
                              have hmem := h2 q hq
                              have hq1 : q.1 ≠ gensym "__unification_var"
                                  (freevars (Expr.Quantifier ss sn sb)
                                    ++ freevars (Expr.Quantifier ts tn tb)) := by
                                intro hcon
                                exact hany (List.any_eq_true.mpr ⟨q, hq, by simp [hcon]⟩)
                              simp only [cvars, List.mem_append] at hmem
                              rcases hmem with (hmem | hmem) | hmem
                              · rcases freevars_subst sb sn _ q.1 hmem with ⟨ha, hb⟩ | hv
                                · exact mem_cvars_left
                                    (by simp [freevars, List.mem_filter]; exact ⟨ha, hb⟩)
                                · simp only [freevars, List.mem_singleton] at hv
                                  exact absurd hv hq1
                              · rcases freevars_subst tb tn _ q.1 hmem with ⟨ha, hb⟩ | hv
                                · exact mem_cvars_right
                                    (by simp [freevars, List.mem_filter]; exact ⟨ha, hb⟩)
                                · simp only [freevars, List.mem_singleton] at hv
                                  exact absurd hv hq1
                              · exact mem_cvars_tail hmem
                      · simp at h
                    · -- different variants: no unifier
                      simp at h

/-- C8: when `unify` succeeds, the names bound by the result
substitution are pairwise distinct; consequently inserting the pairs
into a map one at a time — as `reduce_pattern` does for the pairs whose
key is a pattern variable — never finds the key already present, so its
duplicate-key assertion (`assert!(subs.insert(..).is_none())`) is
unreachable: for any pattern-variable set, the filtered key list is
duplicate-free as well. -/
theorem unify_substitution_keys_distinct (fuel : Nat) (c : List (Expr × Expr))
    (σ : Substitution) (h : unifyF fuel c = some (some σ)) :
    (σ.map Prod.fst).Nodup
    ∧ ∀ pvs : List String,
        ((σ.filter (fun p => p.1 ∈ pvs)).map Prod.fst).Nodup := by
  obtain ⟨h1, _⟩ := unify_dom_invariant fuel c σ h
  exact ⟨h1, fun pvs => ((σ.filter_sublist).map Prod.fst).nodup h1⟩

/-- Witness for C8 on the constraint `x ≡ ⊥`. -/
theorem unify_substitution_keys_distinct_witness :
    unifyF 2 [(.Var "x", Expr.Contradiction)] = some (some [("x", Expr.Contradiction)])
    ∧ (([("x", Expr.Contradiction)] : Substitution).map Prod.fst).Nodup
    ∧ ∀ pvs : List String,
        ((([("x", Expr.Contradiction)] : Substitution).filter
            (fun p => p.1 ∈ pvs)).map Prod.fst).Nodup :=
  ⟨by decide,
    (unify_substitution_keys_distinct 2 [(.Var "x", Expr.Contradiction)]
      [("x", Expr.Contradiction)] (by decide)).1,
    (unify_substitution_keys_distinct 2 [(.Var "x", Expr.Contradiction)]
      [("x", Expr.Contradiction)] (by decide)).2⟩

theorem noSameOpChild_iff {s : ASymbol} {es : List Expr} :
    noSameOpChild s es = true ↔ ∀ x ∈ es, ∀ es2 : List Expr, x ≠ Expr.AssocBinop s es2 := by
  simp only [noSameOpChild, List.all_eq_true]
  constructor
  · intro h x hx es2 hx2
    have := h x hx
    rw [hx2] at this
    simp at this
  · intro h x hx
    cases x with
    | AssocBinop s2 es2 =>
        by_cases hs : s2 = s
        · subst hs
          exact absurd rfl (h _ hx es2)
        · simp [hs]
    | Contradiction => rfl
    | Tautology => rfl
    | Var n => rfl
    | Apply fn args => rfl
    | Unop u o => rfl
    | Binop b l r => rfl
    | Quantifier q n b => rfl

theorem combineSplice_changed_iff (s : ASymbol) : ∀ l : List Expr,
    (combineSplice s l).2 = true ↔ ∃ x ∈ l, ∃ es2, x = Expr.AssocBinop s es2 := by
  intro l
  induction l with
  | nil => simp [combineSplice]
  | cons x rest ih =>
      cases x with
      | AssocBinop s2 es2 =>
          by_cases hs : s2 = s
          · subst hs
            simp only [combineSplice, if_pos rfl]
            simp
          · simp only [combineSplice, if_neg hs]
            simp only [ih, List.mem_cons]
            constructor
            · rintro ⟨y, hy, es3, rfl⟩
              exact ⟨_, Or.inr hy, es3, rfl⟩
            · rintro ⟨y, hy | hy, es3, rfl⟩
              · exact absurd (by injection hy with h1 _; exact h1.symm) hs
              · exact ⟨_, hy, es3, rfl⟩
      | Contradiction =>
          simp only [combineSplice, ih, List.mem_cons]
          constructor
          · rintro ⟨y, hy, es3, rfl⟩; exact ⟨_, Or.inr hy, es3, rfl⟩
          · rintro ⟨y, hy | hy, es3, rfl⟩
            · cases hy
            · exact ⟨_, hy, es3, rfl⟩
      | Tautology =>
          simp only [combineSplice, ih, List.mem_cons]
          constructor
          · rintro ⟨y, hy, es3, rfl⟩; exact ⟨_, Or.inr hy, es3, rfl⟩
          · rintro ⟨y, hy | hy, es3, rfl⟩
            · cases hy
            · exact ⟨_, hy, es3, rfl⟩
      | Var n =>
          simp only [combineSplice, ih, List.mem_cons]
          constructor
          · rintro ⟨y, hy, es3, rfl⟩; exact ⟨_, Or.inr hy, es3, rfl⟩
          · rintro ⟨y, hy | hy, es3, rfl⟩
            · cases hy
            · exact ⟨_, hy, es3, rfl⟩
      | Apply fn args =>
          simp only [combineSplice, ih, List.mem_cons]
          constructor
          · rintro ⟨y, hy, es3, rfl⟩; exact ⟨_, Or.inr hy, es3, rfl⟩
          · rintro ⟨y, hy | hy, es3, rfl⟩
            · cases hy
            · exact ⟨_, hy, es3, rfl⟩
      | Unop u o =>
          simp only [combineSplice, ih, List.mem_cons]
          constructor
          · rintro ⟨y, hy, es3, rfl⟩; exact ⟨_, Or.inr hy, es3, rfl⟩
          · rintro ⟨y, hy | hy, es3, rfl⟩
            · cases hy
            · exact ⟨_, hy, es3, rfl⟩
      | Binop b lft rgt =>
          simp only [combineSplice, ih, List.mem_cons]
          constructor
          · rintro ⟨y, hy, es3, rfl⟩; exact ⟨_, Or.inr hy, es3, rfl⟩
          · rintro ⟨y, hy | hy, es3, rfl⟩
            · cases hy
            · exact ⟨_, hy, es3, rfl⟩
      | Quantifier q n b =>
          simp only [combineSplice, ih, List.mem_cons]
          constructor
          · rintro ⟨y, hy, es3, rfl⟩; exact ⟨_, Or.inr hy, es3, rfl⟩
          · rintro ⟨y, hy | hy, es3, rfl⟩
            · cases hy
            · exact ⟨_, hy, es3, rfl⟩

theorem combineSplice_false (s : ASymbol) : ∀ l : List Expr,
    (combineSplice s l).2 = false → (combineSplice s l).1 = l := by
  intro l
  induction l with
  | nil => intro _; rfl
  | cons x rest ih =>
      intro hfl
      cases x with
      | AssocBinop s2 es2 =>
          by_cases hs : s2 = s
          · subst hs
            simp [combineSplice] at hfl
          · simp only [combineSplice, if_neg hs] at hfl ⊢
            rw [ih hfl]
      | Contradiction => simp only [combineSplice] at hfl ⊢; rw [ih hfl]
      | Tautology => simp only [combineSplice] at hfl ⊢; rw [ih hfl]
      | Var n => simp only [combineSplice] at hfl ⊢; rw [ih hfl]
      | Apply fn args => simp only [combineSplice] at hfl ⊢; rw [ih hfl]
      | Unop u o => simp only [combineSplice] at hfl ⊢; rw [ih hfl]
      | Binop b lft rgt => simp only [combineSplice] at hfl ⊢; rw [ih hfl]
      | Quantifier q n b => simp only [combineSplice] at hfl ⊢; rw [ih hfl]

/- The local rule of the combine pass is progress-free: reporting no
change means the node is returned unchanged and, for an `AssocBinop`,
that it has no same-symbol `AssocBinop` child. -/
theorem combine_rule_false {e r : Expr} (h : combine_rule e = (r, false)) : r = e := by
  cases e with
  | AssocBinop s es =>
      simp only [combine_rule, Prod.mk.injEq] at h
      obtain ⟨h1, h2⟩ := h
      rw [← h1, combineSplice_false s es h2]
  | Contradiction => simpa [combine_rule] using (congrArg Prod.fst h).symm
  | Tautology => simpa [combine_rule] using (congrArg Prod.fst h).symm
  | Var n => simpa [combine_rule] using (congrArg Prod.fst h).symm
  | Apply fn args => simpa [combine_rule] using (congrArg Prod.fst h).symm
  | Unop u o => simpa [combine_rule] using (congrArg Prod.fst h).symm
  | Binop b lft rgt => simpa [combine_rule] using (congrArg Prod.fst h).symm
  | Quantifier q n b => simpa [combine_rule] using (congrArg Prod.fst h).symm

theorem combine_rule_false_noSame {s : ASymbol} {es : List Expr} {r : Expr}
    (h : combine_rule (.AssocBinop s es) = (r, false)) : noSameOpChild s es = true := by
  simp only [combine_rule, Prod.mk.injEq] at h
  rw [noSameOpChild_iff]
  intro x hx es2 hx2
  have := (combineSplice_changed_iff s es).mpr ⟨x, hx, es2, hx2⟩
  rw [h.2] at this
  cases this

/- If the per-element pass is progress-free (no change means unchanged
and flat), so is the list traversal. -/
theorem optionTraverse_false (g : Expr → Option (Expr × Bool))
    (hg : ∀ e r, g e = some (r, false) → r = e ∧ flat e = true) :
    ∀ (l : List Expr) (rs : List Expr),
      optionTraverse g l = some (rs, false) → rs = l ∧ flatList l = true := by
  intro l
  induction l with
  | nil =>
      intro rs h
      simp only [optionTraverse, Option.some.injEq, Prod.mk.injEq] at h
      exact ⟨h.1.symm, rfl⟩
  | cons x xs ih =>
      intro rs h
      simp only [optionTraverse] at h
      cases hgx : g x with
      | none => rw [hgx] at h; exact Option.noConfusion h
      | some r1 =>
          obtain ⟨r1e, r1f⟩ := r1
          cases hrest : optionTraverse g xs with
          | none => rw [hgx, hrest] at h; exact Option.noConfusion h
          | some r2 =>
              obtain ⟨r2l, r2f⟩ := r2
              rw [hgx, hrest] at h
              simp only [Option.bind_eq_bind, Option.some_bind, Option.some.injEq, Prod.mk.injEq] at h
              obtain ⟨hrs, hflag⟩ := h
              rcases Bool.or_eq_false_iff.mp hflag with ⟨hf1, hf2⟩
              obtain ⟨hx1, hx2⟩ := hg x r1e (by rw [hgx, hf1])
              obtain ⟨hl1, hl2⟩ := ih r2l (by rw [hrest, hf2])
              subst hx1
              subst hl1
              exact ⟨hrs.symm, by simp [flatList, hx2, hl2]⟩

/- One inner pass of the combine rule reporting no change returns its
input unchanged, and that input is flat. -/
theorem combine_inner_false : ∀ (f : Nat) (e r : Expr),
    transform_expr_inner combine_rule f e = some (r, false) → r = e ∧ flat e = true := by
  intro f
  induction f with
  | zero => intro e r h; exact Option.noConfusion h
  | succ f ih =>
      intro e r h
      cases e with
      | Contradiction =>
          simp only [transform_expr_inner, combine_rule, Option.some.injEq, Prod.mk.injEq] at h
          exact ⟨h.1.symm, rfl⟩
      | Tautology =>
          simp only [transform_expr_inner, combine_rule, Option.some.injEq, Prod.mk.injEq] at h
          exact ⟨h.1.symm, rfl⟩
      | Var n =>
          simp only [transform_expr_inner, combine_rule, Option.some.injEq, Prod.mk.injEq] at h
          exact ⟨h.1.symm, rfl⟩
      | Apply fn args =>
          simp only [transform_expr_inner, combine_rule] at h
          cases hfn : transform_expr_inner combine_rule f fn with
          | none => rw [hfn] at h; exact Option.noConfusion h
          | some r1 =>
              obtain ⟨r1e, r1f⟩ := r1
              cases hargs : optionTraverse (fun a => transform_expr_inner combine_rule f a) args with
              | none => rw [hfn, hargs] at h; exact Option.noConfusion h
              | some r2 =>
                  obtain ⟨r2l, r2f⟩ := r2
                  rw [hfn, hargs] at h
                  cases r1f with
                  | true => simp [Option.bind_eq_bind, Option.some_bind] at h
                  | false =>
                      cases r2f with
                      | true => simp [Option.bind_eq_bind, Option.some_bind] at h
                      | false =>
                          simp only [Option.bind_eq_bind, Option.some_bind, Option.some.injEq, Prod.mk.injEq] at h
                          obtain ⟨ha1, ha2⟩ := ih fn r1e hfn
                          obtain ⟨hb1, hb2⟩ := optionTraverse_false _ (fun a b hab => ih a b hab)
                            args r2l hargs
                          subst ha1
                          subst hb1
                          exact ⟨h.1.symm, by simp [flat, ha2, hb2]⟩
      | Unop s o =>
          simp only [transform_expr_inner, combine_rule] at h
          cases ho : transform_expr_inner combine_rule f o with
          | none => rw [ho] at h; exact Option.noConfusion h
          | some r1 =>
              obtain ⟨r1e, r1f⟩ := r1
              rw [ho] at h
              cases r1f with
              | true => simp [Option.bind_eq_bind, Option.some_bind] at h
              | false =>
                  simp only [Option.bind_eq_bind, Option.some_bind, Option.some.injEq, Prod.mk.injEq] at h
                  obtain ⟨ha1, ha2⟩ := ih o r1e ho
                  subst ha1
                  exact ⟨h.1.symm, by simpa [flat] using ha2⟩
      | Binop s lft rgt =>
          simp only [transform_expr_inner, combine_rule] at h
          cases hl : transform_expr_inner combine_rule f lft with
          | none => rw [hl] at h; exact Option.noConfusion h
          | some r1 =>
              obtain ⟨r1e, r1f⟩ := r1
              cases hr : transform_expr_inner combine_rule f rgt with
              | none => rw [hl, hr] at h; exact Option.noConfusion h
              | some r2 =>
                  obtain ⟨r2e, r2f⟩ := r2
                  rw [hl, hr] at h
                  cases r1f with
                  | true => simp [Option.bind_eq_bind, Option.some_bind] at h
                  | false =>
                      cases r2f with
                      | true => simp [Option.bind_eq_bind, Option.some_bind] at h
                      | false =>
                          simp only [Option.bind_eq_bind, Option.some_bind, Option.some.injEq, Prod.mk.injEq] at h
                          obtain ⟨ha1, ha2⟩ := ih lft r1e hl
                          obtain ⟨hb1, hb2⟩ := ih rgt r2e hr
                          subst ha1
                          subst hb1
                          exact ⟨h.1.symm, by simp [flat, ha2, hb2]⟩
      | Quantifier q n b =>
          simp only [transform_expr_inner, combine_rule] at h
          cases hb : transform_expr_inner combine_rule f b with
          | none => rw [hb] at h; exact Option.noConfusion h
          | some r1 =>
              obtain ⟨r1e, r1f⟩ := r1
              rw [hb] at h
              cases r1f with
              | true => simp [Option.bind_eq_bind, Option.some_bind] at h
              | false =>
                  simp only [Option.bind_eq_bind, Option.some_bind, Option.some.injEq, Prod.mk.injEq] at h
                  obtain ⟨ha1, ha2⟩ := ih b r1e hb
                  subst ha1
                  exact ⟨h.1.symm, by simpa [flat] using ha2⟩
      | AssocBinop s es =>
          simp only [transform_expr_inner, combine_rule] at h
          cases hes : optionTraverse (fun a => transform_expr_inner combine_rule f a)
              (combineSplice s es).1 with
          | none => rw [hes] at h; exact Option.noConfusion h
          | some r2 =>
              obtain ⟨r2l, r2f⟩ := r2
              rw [hes] at h
              cases hsf : (combineSplice s es).2 with
              | true => rw [hsf] at h; simp [Option.bind_eq_bind, Option.some_bind] at h
              | false =>
                  rw [hsf] at h
                  cases r2f with
                  | true => simp [Option.bind_eq_bind, Option.some_bind] at h
                  | false =>
                      simp only [Option.bind_eq_bind, Option.some_bind, Option.some.injEq, Prod.mk.injEq] at h
                      have hspl : (combineSplice s es).1 = es := combineSplice_false s es hsf
                      obtain ⟨hb1, hb2⟩ := optionTraverse_false _ (fun a b hab => ih a b hab)
                        (combineSplice s es).1 r2l hes
                      have hno : noSameOpChild s es = true :=
                        combine_rule_false_noSame (r := .AssocBinop s (combineSplice s es).1)
                          (by simp [combine_rule, hsf])
                      rw [hspl] at hb1 hb2
                      subst hb1
                      exact ⟨h.1.symm, by simp [flat, hno, hb2]⟩

/- Any terminating run of the combine pass produces a flat result: the
driver only stops when the inner pass reports no change, and a no-change
pass certifies flatness. -/
theorem combine_flat_loop : ∀ (fl : Nat) (e r : Expr),
    combine_associative_ops fl e = some r → flat r = true := by
  intro fl
  induction fl with
  | zero => intro e r h; exact Option.noConfusion h
  | succ f ih =>
      intro e r h
      simp only [combine_associative_ops, transform_expr] at h
      cases hin : transform_expr_inner combine_rule f e with
      | none => rw [hin] at h; exact Option.noConfusion h
      | some p =>
          obtain ⟨x, flag⟩ := p
          rw [hin] at h
          cases flag with
          | true => exact ih x r h
          | false =>
              obtain ⟨hx, hflat⟩ := combine_inner_false f e x hin
              have hxr : x = r := by injection h
              rw [← hxr, hx]
              exact hflat

/-- C7: the combine pass flattens: whenever
`combine_associative_ops` terminates on a well-formed input, no
`AssocBinop` node of the result has a child that is an `AssocBinop` with
the same symbol; and the local rule's splice reports `changed` exactly
when at least one child was an `AssocBinop` with the matching symbol. -/
theorem combine_associative_ops_flattens (e : Expr) (fuel : Nat) (r : Expr)
    (hwf : well_formed e = true) (h : combine_associative_ops fuel e = some r) :
    flat r = true
    ∧ ∀ (s : ASymbol) (es : List Expr),
        ((combineSplice s es).2 = true ↔ ∃ x ∈ es, ∃ es2, x = Expr.AssocBinop s es2) :=
  ⟨combine_flat_loop fuel e r h, fun s es => combineSplice_changed_iff s es⟩

/-- Witness for C7: `a & (b & c)` flattens to the single
`a & b & c`. -/
theorem combine_associative_ops_flattens_witness :
    (well_formed (Expr.AssocBinop .And [.Var "a", .AssocBinop .And [.Var "b", .Var "c"]]) = true
      ∧ combine_associative_ops 6 (.AssocBinop .And [.Var "a", .AssocBinop .And [.Var "b", .Var "c"]])
          = some (.AssocBinop .And [.Var "a", .Var "b", .Var "c"]))
    ∧ (flat (.AssocBinop .And [.Var "a", .Var "b", .Var "c"]) = true
      ∧ ∀ (s : ASymbol) (es : List Expr),
          ((combineSplice s es).2 = true ↔ ∃ x ∈ es, ∃ es2, x = Expr.AssocBinop s es2)) :=
  ⟨⟨by decide, by decide⟩,
    combine_associative_ops_flattens
      (.AssocBinop .And [.Var "a", .AssocBinop .And [.Var "b", .Var "c"]]) 6
      (.AssocBinop .And [.Var "a", .Var "b", .Var "c"]) (by decide) (by decide)⟩

/- Substituting a variable that occurs nowhere in `e` (not even as a
binder), by a variable that also occurs nowhere in `e`, leaves `e`
unchanged.  (Both freshness conditions are needed: a binder named like
the replacement variable would trigger the alpha-renaming case.) -/
theorem subst_nop : ∀ e : Expr, ∀ y u : String,
    y ∉ allIdents e → u ∉ allIdents e → subst e y (.Var u) = e := by
  intro e
  induction e using expr_size_induction with
  | step e IH =>
    intro y u hy hu
    cases e with
    | Contradiction => rfl
    | Tautology => rfl
    | Var n =>
        rw [subst_Var, if_neg]
        intro hn
        exact hy (by simp [allIdents, hn])
    | Apply fn args =>
        simp only [allIdents, List.mem_append, mem_allIdentsList] at hy hu
        rw [subst_Apply]
        have h1 : subst fn y (.Var u) = fn :=
          IH fn (by simp [Expr.size]; omega) y u (fun hc => hy (Or.inl hc)) (fun hc => hu (Or.inl hc))
        have h2 : args.map (fun a => subst a y (.Var u)) = args.map id :=
          List.map_congr_left (fun a ha => IH a
            (by have := Expr.size_le_sizeList_of_mem ha; simp [Expr.size]; omega) y u
            (fun hc => hy (Or.inr ⟨a, ha, hc⟩)) (fun hc => hu (Or.inr ⟨a, ha, hc⟩)))
        rw [h1, h2, List.map_id]
    | Unop s o =>
        simp only [allIdents] at hy hu
        rw [subst_Unop, IH o (by simp [Expr.size]) y u hy hu]
    | Binop s l r =>
        simp only [allIdents, List.mem_append] at hy hu
        rw [subst_Binop,
          IH l (by simp [Expr.size]; omega) y u (fun hc => hy (Or.inl hc)) (fun hc => hu (Or.inl hc)),
          IH r (by simp [Expr.size]; omega) y u (fun hc => hy (Or.inr hc)) (fun hc => hu (Or.inr hc))]
    | AssocBinop s es =>
        simp only [allIdents, mem_allIdentsList] at hy hu
        rw [subst_AssocBinop]
        have h2 : es.map (fun a => subst a y (.Var u)) = es.map id :=
          List.map_congr_left (fun a ha => IH a
            (by have := Expr.size_le_sizeList_of_mem ha; simp [Expr.size]; omega) y u
            (fun hc => hy ⟨a, ha, hc⟩) (fun hc => hu ⟨a, ha, hc⟩))
        rw [h2, List.map_id]
    | Quantifier q m b =>
        simp only [allIdents, List.mem_cons] at hy hu
        rw [subst_Quantifier, if_neg (fun hc => hy (Or.inl hc.symm)), if_neg]
        · rw [IH b (by simp [Expr.size]) y u (fun hc => hy (Or.inr hc)) (fun hc => hu (Or.inr hc))]
        · intro hc
          simp only [freevars, List.mem_singleton] at hc
          exact hu (Or.inl hc.symm)

/- Composing the renaming `[x ↦ y]` with `[y ↦ u]` equals the direct
renaming `[x ↦ u]`, provided `y` and `u` occur nowhere in `B` and differ
from each other and from `x`.  This is the syntactic identity behind the
quantifier case of the unifier when the alpha-renaming side conditions
hold. -/
theorem subst_chain : ∀ B : Expr, ∀ x y u : String,
    y ∉ allIdents B → u ∉ allIdents B → u ≠ y → u ≠ x →
    subst (subst B x (.Var y)) y (.Var u) = subst B x (.Var u) := by
  intro B
  induction B using expr_size_induction with
  | step B IH =>
    intro x y u hy hu huy hux
    cases B with
    | Contradiction => rfl
    | Tautology => rfl
    | Var n =>
        by_cases hnx : n = x
        · rw [subst_Var, if_pos hnx, subst_Var, if_pos rfl, subst_Var, if_pos hnx]
        · have hny : n ≠ y := fun hc => hy (by simp [allIdents, hc])
          rw [subst_Var, if_neg hnx, subst_Var, if_neg hny, subst_Var, if_neg hnx]
    | Apply fn args =>
        simp only [allIdents, List.mem_append, mem_allIdentsList] at hy hu
        rw [subst_Apply, subst_Apply, subst_Apply]
        rw [List.map_map]
        congr 1
        · exact IH fn (by simp [Expr.size]; omega) x y u
            (fun hc => hy (Or.inl hc)) (fun hc => hu (Or.inl hc)) huy hux
        · exact List.map_congr_left (fun a ha => IH a
            (by have := Expr.size_le_sizeList_of_mem ha; simp [Expr.size]; omega) x y u
            (fun hc => hy (Or.inr ⟨a, ha, hc⟩)) (fun hc => hu (Or.inr ⟨a, ha, hc⟩)) huy hux)
    | Unop s o =>
        simp only [allIdents] at hy hu
        rw [subst_Unop, subst_Unop, subst_Unop,
          IH o (by simp [Expr.size]) x y u hy hu huy hux]
    | Binop s l r =>
        simp only [allIdents, List.mem_append] at hy hu
        rw [subst_Binop, subst_Binop, subst_Binop,
          IH l (by simp [Expr.size]; omega) x y u
            (fun hc => hy (Or.inl hc)) (fun hc => hu (Or.inl hc)) huy hux,
          IH r (by simp [Expr.size]; omega) x y u
            (fun hc => hy (Or.inr hc)) (fun hc => hu (Or.inr hc)) huy hux]
    | AssocBinop s es =>
        simp only [allIdents, mem_allIdentsList] at hy hu
        rw [subst_AssocBinop, subst_AssocBinop, subst_AssocBinop]
        rw [List.map_map]
        congr 1
        exact List.map_congr_left (fun a ha => IH a
          (by have := Expr.size_le_sizeList_of_mem ha; simp [Expr.size]; omega) x y u
          (fun hc => hy ⟨a, ha, hc⟩) (fun hc => hu ⟨a, ha, hc⟩) huy hux)
    | Quantifier q m b =>
        simp only [allIdents, List.mem_cons] at hy hu
        have hmy : m ≠ y := fun hc => hy (Or.inl hc.symm)
        have hmu : m ∉ freevars (Expr.Var u) := by
          simp only [freevars, List.mem_singleton]
          exact fun hc => hu (Or.inl hc.symm)
        by_cases hmx : m = x
        · rw [subst_Quantifier, if_pos hmx, subst_Quantifier, if_neg hmy, if_neg hmu,
            subst_Quantifier, if_pos hmx,
            subst_nop b y u (fun hc => hy (Or.inr hc)) (fun hc => hu (Or.inr hc))]
        · have hmfy : m ∉ freevars (Expr.Var y) := by
            simp only [freevars, List.mem_singleton]
            exact fun hc => hy (Or.inl hc.symm)
          rw [subst_Quantifier, if_neg hmx, if_neg hmfy, subst_Quantifier, if_neg hmy,
            if_neg hmu, subst_Quantifier, if_neg hmx, if_neg hmu,
            IH b (by simp [Expr.size]) x y u
              (fun hc => hy (Or.inr hc)) (fun hc => hu (Or.inr hc)) huy hux]

/-- C4 as stated is false: with `B = Var y` (so `y` free in `B`),
`unify({ ∀x. y  ≡  ∀y. subst(y, x, y) })` must, per the claim, succeed
with the empty substitution, but the unifier returns failure (the fresh
constant escapes into the candidate substitution and the escape check
rejects), and indeed `∀x. y` and `∀y. y` are not alpha-equivalent.  The
fuel 5 is ample: the run finishes and `some none` is the source's
`None`. -/
theorem unify_alpha_completeness_counterexample :
    unifyF 5 [(.Quantifier .Forall "x" (.Var "y"),
               .Quantifier .Forall "y" (subst (.Var "y") "x" (.Var "y")))] = some none
    ∧ (some (none : Option Substitution) ≠ some (some [])) := by
  exact ⟨by decide, by decide⟩

theorem varElim?_quantifier (q : QSymbol) (n : String) (b t : Expr) :
    varElim? (.Quantifier q n b) t = none := rfl

theorem unifyDecompose_quantifier (rec : List (Expr × Expr) → Option (Option Substitution))
    (ss ts : QSymbol) (sn tn : String) (sb tb : Expr) (c : List (Expr × Expr)) :
    unifyDecompose rec (.Quantifier ss sn sb) (.Quantifier ts tn tb) c =
      (if ss = ts then
        (rec ((subst sb sn (.Var (gensym "__unification_var"
                  (freevars (.Quantifier ss sn sb) ++ freevars (.Quantifier ts tn tb)))),
                subst tb tn (.Var (gensym "__unification_var"
                  (freevars (.Quantifier ss sn sb) ++ freevars (.Quantifier ts tn tb))))) :: c)).map
          (fun r => r.bind (fun σ =>
            if σ.any (fun p =>
                  p.1 = gensym "__unification_var"
                      (freevars (.Quantifier ss sn sb) ++ freevars (.Quantifier ts tn tb))
                  || gensym "__unification_var"
                      (freevars (.Quantifier ss sn sb) ++ freevars (.Quantifier ts tn tb))
                    ∈ freevars p.2)
            then none else some σ))
      else some none) := rfl

/-- C4 (amended): for every expression `B` and names `x`, `y` such that
`y` occurs nowhere in `B` (neither free nor as a binder) and the
unifier's fresh constant `u = gensym "__unification_var" (fv lhs ++ fv rhs)`
occurs nowhere in `B` and differs from `x` and `y`,
`unify({ Q x B ≡ Q y (subst B x y) })` succeeds with the empty
substitution (for any sufficient fuel; two steps always suffice). -/
theorem unify_quantifier_alpha (q : QSymbol) (x y : String) (B : Expr) (fuel : Nat)
    (hy : y ∉ allIdents B)
    (hu : gensym "__unification_var"
        (freevars (Expr.Quantifier q x B)
          ++ freevars (Expr.Quantifier q y (subst B x (.Var y)))) ∉ allIdents B)
    (hux : gensym "__unification_var"
        (freevars (Expr.Quantifier q x B)
          ++ freevars (Expr.Quantifier q y (subst B x (.Var y)))) ≠ x)
    (huy : gensym "__unification_var"
        (freevars (Expr.Quantifier q x B)
          ++ freevars (Expr.Quantifier q y (subst B x (.Var y)))) ≠ y) :
    unifyF (fuel + 2)
      [(Expr.Quantifier q x B, Expr.Quantifier q y (subst B x (.Var y)))]
      = some (some []) := by
  have hA : ∀ A : Expr, unifyF (fuel + 1) [(A, A)] = some (some []) := by
    intro A
    rw [unifyF, if_pos rfl]
    rw [unifyF]
  by_cases hst : Expr.Quantifier q x B = Expr.Quantifier q y (subst B x (.Var y))
  · rw [unifyF, if_pos hst]
    rw [unifyF]
  · rw [unifyF, if_neg hst]
    simp only [varElim?_quantifier]
    rw [unifyDecompose_quantifier, if_pos rfl]
    rw [subst_chain B x y (gensym "__unification_var"
        (freevars (Expr.Quantifier q x B)
          ++ freevars (Expr.Quantifier q y (subst B x (.Var y))))) hy hu huy hux]
    rw [hA]
    simp

/-- Witness for the amended C4, at `B = Var x`, `x = "x"`, `y = "y"`
(the spec's own scenario `forall x, x ≡ forall y, y`). -/
theorem unify_quantifier_alpha_witness :
    ("y" ∉ allIdents (Expr.Var "x")
      ∧ gensym "__unification_var"
          (freevars (Expr.Quantifier .Forall "x" (.Var "x"))
            ++ freevars (Expr.Quantifier .Forall "y" (subst (.Var "x") "x" (.Var "y"))))
          ∉ allIdents (Expr.Var "x")
      ∧ gensym "__unification_var"
          (freevars (Expr.Quantifier .Forall "x" (.Var "x"))
            ++ freevars (Expr.Quantifier .Forall "y" (subst (.Var "x") "x" (.Var "y")))) ≠ "x"
      ∧ gensym "__unification_var"
          (freevars (Expr.Quantifier .Forall "x" (.Var "x"))
            ++ freevars (Expr.Quantifier .Forall "y" (subst (.Var "x") "x" (.Var "y")))) ≠ "y")
    ∧ unifyF 2 [(Expr.Quantifier .Forall "x" (.Var "x"),
                 Expr.Quantifier .Forall "y" (subst (.Var "x") "x" (.Var "y")))]
        = some (some []) :=
  ⟨⟨by decide, by decide, by decide, by decide⟩,
    unify_quantifier_alpha .Forall "x" "y" (.Var "x") 0
      (by decide) (by decide) (by decide) (by decide)⟩
